import Mathlib

/-!
Shallow embedding of the iteration engine of the promise-essentials library
(file `lib/index.js`, class `PromiseUtil`, plus helper `prepareIteration`).

Promises are modelled by their eventual, deterministic outcome `Except Err v`:
a settled promise is either `.ok v` (resolved) or `.error e` (rejected).
Sequencing of the one-at-a-time walker becomes ordinary sequential recursion;
the order in which the user callback is invoked is made observable through an
explicit trace of `(value, key)` invocation records.

Every operation returns `Except Err (...)` on the *outside* for exceptions
thrown synchronously (before the promise is even created — `prepareIteration`
throws a `TypeError` for unsupported containers) and carries a second, inner
`Except Err (...)` for the eventual outcome of the returned promise.
-/

namespace PromiseEssentials

/-- Failure values: the synchronous `TypeError` thrown by `prepareIteration`
for non-iterable collections, and arbitrary user-level rejection payloads. -/
inductive Err where
  | typeError
  | userErr (n : Nat)
deriving DecidableEq, Repr

/-- A JavaScript value, at the granularity the engine inspects values:
nullish-ness (`value != null`) and truthiness (`Boolean(value)`) are the only
observations the code makes, besides passing values around unchanged. -/
inductive JSVal where
  | undefined
  | nullv
  | boolean (b : Bool)
  | num (n : Int)
  | str (s : String)
  | objRef (id : Nat)
deriving DecidableEq, Repr

/-- JavaScript truthiness `Boolean(v)` (numbers: zero is falsy; strings: the
empty string is falsy; objects are always truthy). -/
def JSVal.truthy : JSVal → Bool
  | .undefined => false
  | .nullv => false
  | .boolean b => b
  | .num n => n != 0
  | .str s => s != ""
  | .objRef _ => true

/-- JavaScript loose nullish test `v == null` (true exactly for `null` and
`undefined`). -/
def JSVal.isNullish : JSVal → Bool
  | .undefined => true
  | .nullv => true
  | _ => false

instance {ε α : Type} [DecidableEq ε] [DecidableEq α] : DecidableEq (Except ε α) := fun x y =>
  match x, y with
  | .ok a, .ok b =>
      if h : a = b then .isTrue (by rw [h]) else .isFalse (fun hc => h (Except.ok.inj hc))
  | .error a, .error b =>
      if h : a = b then .isTrue (by rw [h]) else .isFalse (fun hc => h (Except.error.inj hc))
  | .ok _, .error _ => .isFalse (fun hc => Except.noConfusion hc)
  | .error _, .ok _ => .isFalse (fun hc => Except.noConfusion hc)

/-- An element stored in a container: either a plain value, or a promise
(`item instanceof Promise` is true), carried with its eventual outcome. -/
inductive Elem where
  | val (v : JSVal)
  | pend (r : Except Err JSVal)
deriving DecidableEq, Repr

/-- A key as the engine computes it: `keys ? keys[current] : current`, i.e.
either a plain integer position or a string key taken from the key list. -/
inductive Key where
  | pos (n : Nat)
  | name (s : String)
deriving DecidableEq, Repr

/-- Outcome of one user-callback invocation: a synchronous return value, a
returned promise (with its eventual outcome), or a synchronously thrown
exception. -/
inductive CbRes where
  | ret (v : JSVal)
  | pend (r : Except Err JSVal)
  | thrw (e : Err)
deriving DecidableEq, Repr

/-- The promise the engine builds around one callback invocation:
`new Promise( done => done( fn( ... ) ) )` resolves with a synchronous return,
adopts a returned promise, and rejects on a synchronous throw. -/
def CbRes.run : CbRes → Except Err JSVal
  | .ret v => .ok v
  | .pend r => r
  | .thrw e => .error e

/-- The input container, classified by the shapes `prepareIteration` can meet:
a `Map` (ordered key/value container), an `Array`, a generic object carrying
an optional numeric `length` property (array-likes when the length qualifies,
plain objects otherwise: `props` lists its own enumerable keys in insertion
order, `elems` its indexed properties), or a primitive with no `length`. -/
inductive JSInputTy where
  | jsMap (entries : List (String × Elem))
  | jsArray (elems : List Elem)
  | jsObj (len : Option Int) (elems : List Elem) (props : List (String × Elem))
  | jsPrim
deriving DecidableEq, Repr

/-- A user callback `( value, key, collection ) => result`. -/
abbrev Cb := JSVal → Key → JSInputTy → CbRes

/-- Collector requested from `prepareIteration`: none, a fresh `Array`, a
fresh `Map`, or a fresh plain object. -/
inductive CollKind where
  | cnone
  | carr
  | cmap
  | cobj
deriving DecidableEq, Repr

/-- The iteration context `prepareIteration` returns: the ordered key list
(`none` means keys are the integer positions `0 .. length-1`), the element
count, whether element access goes through `collection.get( key )`, and which
kind of collector was allocated. -/
structure Plan where
  indexes : Option (List String)
  length : Nat
  useGet : Bool
  collKind : CollKind
deriving DecidableEq, Repr

/-- Embedding of `prepareIteration( items, { createCollector, asArray } )`:
classify the container, in source order of the checks — `Map` first, then
`Array.isArray || ( items.length > -1 && integral length )`, then
`typeof items === "object"` — and throw a `TypeError` otherwise.  In the
model numeric lengths are integral, so the `parseInt === parseFloat` test is
always passed and only `length > -1` remains. -/
def prepareIteration (items : JSInputTy) (createCollector : Bool) (asArray : Bool) :
    Except Err Plan :=
  match items with
  | .jsMap entries =>
      .ok ⟨Option.some (entries.map Prod.fst), entries.length, true,
        if createCollector then (if asArray then .carr else .cmap) else .cnone⟩
  | .jsArray elems =>
      .ok ⟨Option.none, elems.length, false,
        if createCollector then .carr else .cnone⟩
  | .jsObj len elems props =>
      match len with
      | Option.some n =>
          if n > -1 then
            .ok ⟨Option.none, n.toNat, false,
              if createCollector then .carr else .cnone⟩
          else
            .ok ⟨Option.some (props.map Prod.fst), props.length, false,
              if createCollector then (if asArray then .carr else .cobj) else .cnone⟩
      | Option.none =>
          .ok ⟨Option.some (props.map Prod.fst), props.length, false,
            if createCollector then (if asArray then .carr else .cobj) else .cnone⟩
  | .jsPrim => .error .typeError

/-- Property lookup on an association list; a missing property reads as
`undefined` (also the behaviour of `Map.prototype.get` on a missing key). -/
def lookupProp (props : List (String × Elem)) (s : String) : Elem :=
  match props.lookup s with
  | Option.some e => e
  | Option.none => .val .undefined

/-- Element access as the walkers perform it:
`useGet ? collection.get( key ) : collection[key]`.  Indexed access past the
populated slots of an array(-like) reads `undefined`. -/
def getElem (items : JSInputTy) (useGet : Bool) (k : Key) : Elem :=
  if useGet then
    match items, k with
    | .jsMap entries, .name s => lookupProp entries s
    | _, _ => .val .undefined
  else
    match items, k with
    | .jsArray elems, .pos n => elems.getD n (.val .undefined)
    | .jsObj _ elems _, .pos n => elems.getD n (.val .undefined)
    | .jsObj _ _ props, .name s => lookupProp props s
    | _, _ => .val .undefined

/-- `keys ? keys[current] : current`. -/
def mkKey (indexes : Option (List String)) (current : Nat) : Key :=
  match indexes with
  | Option.some ks => .name (ks.getD current "")
  | Option.none => .pos current

/-- A trace of user-callback invocations: the value the callback received and
the key it was invoked with, in invocation order. -/
abbrev Trace := List (JSVal × Key)

/-- The per-element unit of work shared by all walkers: if the element is a
promise, await it and call the callback on its resolution (no invocation at
all when it rejects — the walk aborts); otherwise call the callback on the
raw element.  Returns the invocation trace of this element together with the
settled outcome of the promise the engine chains on. -/
def elemRun (fn : Cb) (items : JSInputTy) (e : Elem) (k : Key) : Trace × Except Err JSVal :=
  match e with
  | .val v => ([(v, k)], (fn v k items).run)
  | .pend (.ok v) => ([(v, k)], (fn v k items).run)
  | .pend (.error err) => ([], .error err)

/-- The per-position unit of work: read the raw element for position `i` of
the traversal and run `elemRun` on it. -/
def elemOutcome (fn : Cb) (items : JSInputTy) (useGet : Bool)
    (indexes : Option (List String)) (i : Nat) : Trace × Except Err JSVal :=
  elemRun fn items (getElem items useGet (mkKey indexes i)) (mkKey indexes i)

/-- What `each` resolves with: `true` (early stop hit), `false` (early stop
configured with `stopOnReturn === true` but never hit), or the source
collection itself. -/
inductive EachOut where
  | tru
  | fls
  | coll (c : JSInputTy)
deriving DecidableEq, Repr

/-- The early-stop test of `each`:
`stopOnReturn != null && value != null && Boolean( value ) === stopOnReturn`. -/
def stopHitB (stopOnReturn : Option Bool) (value : JSVal) : Bool :=
  match stopOnReturn with
  | Option.some b => !value.isNullish && (value.truthy == b)
  | Option.none => false

/-- What `each` resolves with at exhaustion:
`stopOnReturn ? false : collection` — a *truthiness* test on the flag, so
only `stopOnReturn: true` selects boolean `false`; both `null` and `false`
select the collection branch. -/
def exhaustOut (stopOnReturn : Option Bool) (items : JSInputTy) : EachOut :=
  match stopOnReturn with
  | Option.some true => .fls
  | _ => .coll items

/-- The recursive `step` function of `PromiseUtil.each`, recursing on the
number of remaining elements (`current < stopAt`).  On a settled callback
result `value` the walk stops with `true` when the early-stop test fires; at
exhaustion it resolves `exhaustOut`. -/
def eachGo (fn : Cb) (items : JSInputTy) (useGet : Bool) (indexes : Option (List String))
    (stopOnReturn : Option Bool) : Nat → Nat → Trace × Except Err EachOut
  | _, 0 => ([], .ok (exhaustOut stopOnReturn items))
  | current, remaining + 1 =>
      let tr := elemOutcome fn items useGet indexes current
      match tr.2 with
      | .error e => (tr.1, .error e)
      | .ok value =>
          if stopHitB stopOnReturn value then (tr.1, .ok .tru)
          else
            let rest := eachGo fn items useGet indexes stopOnReturn (current + 1) remaining
            (tr.1 ++ rest.1, rest.2)

namespace PromiseUtil

/-- `PromiseUtil.each( items, fn, { stopOnReturn } )`.  The outer `Except` is
the synchronous exception channel (`prepareIteration` may throw before the
promise is created); the inner pair is the callback trace and the settled
outcome of the returned promise. -/
def each (items : JSInputTy) (fn : Cb) (stopOnReturn : Option Bool) :
    Except Err (Trace × Except Err EachOut) :=
  match prepareIteration items false false with
  | .error e => .error e
  | .ok plan => .ok (eachGo fn items plan.useGet plan.indexes stopOnReturn 0 plan.length)

/-- `PromiseUtil.some( items, fn )` — `each` with `stopOnReturn: true`. -/
def some (items : JSInputTy) (fn : Cb) : Except Err (Trace × Except Err EachOut) :=
  each items fn (Option.some true)

/-- JavaScript `!result` applied to what `each` resolved with (a collection
is a truthy object, so its negation is `false`). -/
def jsNegate : EachOut → Bool
  | .tru => false
  | .fls => true
  | .coll _ => false

/-- `PromiseUtil.every( items, fn )` — as written in the source:
`this.each( items, fn, { stopOnReturn: true } ).then( result => !result )`. -/
def every (items : JSInputTy) (fn : Cb) : Except Err (Trace × Except Err Bool) :=
  match each items fn (Option.some true) with
  | .error e => .error e
  | .ok (t, r) => .ok (t, r.map jsNegate)

end PromiseUtil

/-- A result collection: a fresh `Array`, `Map`, or plain object, holding
entries in the order the engine wrote them. -/
inductive ResColl (α : Type) where
  | rarr (l : List α)
  | rmap (l : List (String × α))
  | robj (l : List (String × α))
deriving DecidableEq, Repr

/-- String form of a key, for writes into `Map`/object collectors (those
collectors only ever receive `.name` keys, whose name this returns). -/
def keyName : Key → String
  | .name s => s
  | .pos n => toString n

/-- Assemble the `(key, value)` pairs a sequential walk wrote, in write
order, into the collector allocated by `prepareIteration`: an `Array`
collector receives the values compacted in order (`filter` compacts by
`writeIndex` and truncates with `splice`; `map` writes every position in
increasing order), a `Map`/object collector is written at the keys. -/
def assembleKept {α : Type} (ck : CollKind) (kept : List (Key × α)) : ResColl α :=
  match ck with
  | .carr => .rarr (kept.map Prod.snd)
  | .cnone => .rarr (kept.map Prod.snd)
  | .cmap => .rmap (kept.map (fun p => (keyName p.1, p.2)))
  | .cobj => .robj (kept.map (fun p => (keyName p.1, p.2)))

/-- The recursive `step` of `PromiseUtil.filter`: per element, run the
callback on the (resolved) element; when the result `keep` is truthy, write
the **raw** element `item` — read before any promise resolution — into the
collector.  Returns the trace and the kept `(key, raw element)` pairs. -/
def filterGo (fn : Cb) (items : JSInputTy) (useGet : Bool) (indexes : Option (List String)) :
    Nat → Nat → Trace × Except Err (List (Key × Elem))
  | _, 0 => ([], .ok [])
  | current, remaining + 1 =>
      let key := mkKey indexes current
      let item := getElem items useGet key
      let tr := elemRun fn items item key
      match tr.2 with
      | .error e => (tr.1, .error e)
      | .ok keep =>
          let rest := filterGo fn items useGet indexes (current + 1) remaining
          match rest.2 with
          | .error e => (tr.1 ++ rest.1, .error e)
          | .ok kept =>
              (tr.1 ++ rest.1, .ok (if keep.truthy then (key, item) :: kept else kept))

/-- The recursive `step` of `PromiseUtil.map`: per element, run the callback
on the (resolved) element and record the mapped value at the element's
key/position. -/
def mapGo (fn : Cb) (items : JSInputTy) (useGet : Bool) (indexes : Option (List String)) :
    Nat → Nat → Trace × Except Err (List (Key × JSVal))
  | _, 0 => ([], .ok [])
  | current, remaining + 1 =>
      let key := mkKey indexes current
      let tr := elemOutcome fn items useGet indexes current
      match tr.2 with
      | .error e => (tr.1, .error e)
      | .ok mapped =>
          let rest := mapGo fn items useGet indexes (current + 1) remaining
          match rest.2 with
          | .error e => (tr.1 ++ rest.1, .error e)
          | .ok pairs => (tr.1 ++ rest.1, .ok ((key, mapped) :: pairs))

/-- `multiMap`'s reassembly of `Promise.all`'s value list: an `Array`
collector just takes `mappedValues`; a `Map`/object collector is written at
`indexes[i]` for `i` in `0 .. length-1`. -/
def assembleMulti (ck : CollKind) (idx : Option (List String)) (vs : List JSVal) :
    ResColl JSVal :=
  match ck with
  | .carr => .rarr vs
  | .cnone => .rarr vs
  | .cmap => .rmap ((idx.getD []).zip vs)
  | .cobj => .robj ((idx.getD []).zip vs)

/-- `Promise.all`, determinized: succeeds with all values when every promise
resolved, otherwise fails with the first (in list order) rejection. -/
def allOk {α : Type} : List (Except Err α) → Except Err (List α)
  | [] => .ok []
  | .error e :: _ => .error e
  | .ok v :: rest => (allOk rest).map (fun l => v :: l)

namespace PromiseUtil

/-- `PromiseUtil.filter( items, fn, { asArray } )`. -/
def filter (items : JSInputTy) (fn : Cb) (asArray : Bool) :
    Except Err (Trace × Except Err (ResColl Elem)) :=
  match prepareIteration items true asArray with
  | .error e => .error e
  | .ok plan =>
      let g := filterGo fn items plan.useGet plan.indexes 0 plan.length
      .ok (g.1, g.2.map (assembleKept plan.collKind))

/-- `PromiseUtil.map( items, fn, { asArray } )`. -/
def map (items : JSInputTy) (fn : Cb) (asArray : Bool) :
    Except Err (Trace × Except Err (ResColl JSVal)) :=
  match prepareIteration items true asArray with
  | .error e => .error e
  | .ok plan =>
      let g := mapGo fn items plan.useGet plan.indexes 0 plan.length
      .ok (g.1, g.2.map (assembleKept plan.collKind))

/-- `PromiseUtil.multiMap( items, fn, { asArray } )`: start the per-element
work for every element, `Promise.all` the outcomes, then reassemble — an
`Array` collector just takes `mappedValues`, a `Map`/object collector is
written at `indexes[i]` for `i` in `0 .. length-1`. -/
def multiMap (items : JSInputTy) (fn : Cb) (asArray : Bool) :
    Except Err (Except Err (ResColl JSVal)) :=
  match prepareIteration items true asArray with
  | .error e => .error e
  | .ok plan =>
      let mapping := (List.range plan.length).map
        (fun i => (elemOutcome fn items plan.useGet plan.indexes i).2)
      .ok ((allOk mapping).map (assembleMulti plan.collKind plan.indexes))

end PromiseUtil

/-- What `indexOf` resolves with: the found key, or on exhaustion
`keys ? undefined : -1`. -/
inductive IdxOut where
  | notFoundUndef
  | notFoundNeg1
  | atKey (k : Key)
deriving DecidableEq, Repr

/-- The recursive `step` of `PromiseUtil.indexOf`, over the list of traversal
positions still to visit (`current` advancing by `advanceBy` until it meets
`stopAt` visits exactly these positions): resolve the key on the first truthy
callback result, or the shape-dependent not-found sentinel at exhaustion. -/
def indexOfGo (fn : Cb) (items : JSInputTy) (useGet : Bool) (indexes : Option (List String)) :
    List Nat → Trace × Except Err IdxOut
  | [] => ([], .ok (if indexes.isSome then .notFoundUndef else .notFoundNeg1))
  | p :: rest =>
      let tr := elemOutcome fn items useGet indexes p
      match tr.2 with
      | .error e => (tr.1, .error e)
      | .ok v =>
          if v.truthy then (tr.1, .ok (.atKey (mkKey indexes p)))
          else
            let r := indexOfGo fn items useGet indexes rest
            (tr.1 ++ r.1, r.2)

/-- The positions `step` visits: `0, 1, …, length-1` forward, or
`length-1, …, 1, 0` when `getLast` requests the backward walk. -/
def visitOrder (getLast : Bool) (length : Nat) : List Nat :=
  if getLast then (List.range length).reverse else List.range length

/-- A raw element as a promise resolution value: resolving with a pending
element adopts it, so the caller sees its resolution (or its failure). -/
def coerceElem : Elem → Except Err JSVal
  | .val v => .ok v
  | .pend r => r

/-- The continuation `PromiseUtil.find` chains onto `indexOf`:
`Array.isArray( items ) ? ( index > -1 ? items[index] : undefined )`
else `undefined` when `index === undefined`, else
`items instanceof Map ? items.get( index ) : items[index]`.  In the last
branch the `-1` sentinel of an array-like source is **not** intercepted: the
code executes `items[-1]`, a property read at the string key `"-1"` — it
yields the object's own `"-1"` property when one exists (adopted if it is a
promise), and only otherwise `undefined`.  (A `Map` there would run
`items.get( -1 )`, a missing numeric key, hence `undefined`; that branch is
unreachable since `Map` sources use the `undefined` sentinel.) -/
def findLookup (items : JSInputTy) (idx : IdxOut) : Except Err JSVal :=
  match items with
  | .jsArray elems =>
      match idx with
      | .atKey (.pos n) => coerceElem (elems.getD n (.val .undefined))
      | _ => .ok .undefined
  | _ =>
      match idx with
      | .notFoundUndef => .ok .undefined
      | .notFoundNeg1 =>
          match items with
          | .jsObj _ _ props => coerceElem (lookupProp props "-1")
          | _ => .ok .undefined
      | .atKey k =>
          coerceElem (getElem items (match items with | .jsMap _ => true | _ => false) k)

namespace PromiseUtil

/-- `PromiseUtil.indexOf( items, fn, getLast )`. -/
def indexOf (items : JSInputTy) (fn : Cb) (getLast : Bool) :
    Except Err (Trace × Except Err IdxOut) :=
  match prepareIteration items false false with
  | .error e => .error e
  | .ok plan => .ok (indexOfGo fn items plan.useGet plan.indexes (visitOrder getLast plan.length))

/-- `PromiseUtil.find( items, fn, getLast )` — `indexOf` followed by the
element lookup continuation. -/
def find (items : JSInputTy) (fn : Cb) (getLast : Bool) :
    Except Err (Trace × Except Err JSVal) :=
  match indexOf items fn getLast with
  | .error e => .error e
  | .ok (t, .error e) => .ok (t, .error e)
  | .ok (t, .ok idx) => .ok (t, findLookup items idx)

end PromiseUtil

/-!
Embedding of `PromiseUtil.process( stream, fn )` as a state machine.  The
shared process context (the `target` object passed as `this` to the callback)
is an arbitrary state type `σ`; the callback is modelled by the effect it has
when invoked: mutate the context and return synchronously, throw, or return a
promise whose eventual outcome is fixed.  Stream scheduling is an explicit
event list: `data`/`error`/`end` delivery plus the settling of the currently
outstanding per-unit promise.
-/

/-- The observable behaviour of one invocation of the per-unit callback. -/
inductive CbEffect (σ : Type) where
  | sync (f : σ → σ)
  | thrw (e : Err)
  | pend (f : σ → σ) (out : Except Err Unit)

/-- A per-unit callback: receives the current context, the delivered unit and
the ordinal `counter`. -/
abbrev ProcCb (σ : Type) := σ → JSVal → Nat → CbEffect σ

/-- State of a running `process` invocation: the closure variables `counter`,
`target`, `finished`, `failure`, the stream's pause flag, the outcome of the
outstanding per-unit promise (if any), and the settled state of the promise
`process` returned (`none` while it is still pending). -/
structure ProcState (σ : Type) where
  counter : Nat
  target : σ
  finished : Bool
  failure : Option Err
  paused : Bool
  pendingOut : Option (Except Err Unit)
  settled : Option (Except Err σ)

/-- Events driving the machine: `data` delivery (only possible while the
stream is flowing), `error` and `end` signals, and the settling of the
outstanding per-unit promise. -/
inductive ProcEv where
  | dataEv (item : JSVal)
  | errEv (e : Err)
  | endEv
  | settleEv

/-- `resolve`/`reject` semantics of the surrounding promise: only the first
settlement takes effect. -/
def trySettle {σ : Type} (s : ProcState σ) (r : Except Err σ) : ProcState σ :=
  match s.settled with
  | Option.some _ => s
  | Option.none => { s with settled := Option.some r }

/-- One step of the `process` machine, mirroring the `data`/`error`/`end`
handlers and the continuations of the per-unit promise:
`data` invokes the callback (incrementing `counter` in the call expression);
a thrown exception pauses the stream and rejects; a returned promise pauses
the stream; `error` records the failure and rejects only when the stream is
not paused; `end` records completion and resolves only when not paused; the
outstanding promise settling either rejects (stream kept paused) or resumes
the stream and then resolves/rejects if `end`/`error` arrived meanwhile. -/
def procStep {σ : Type} (pfn : ProcCb σ) (s : ProcState σ) : ProcEv → ProcState σ
  | .dataEv item =>
      match pfn s.target item s.counter with
      | .sync f => { s with target := f s.target, counter := s.counter + 1 }
      | .thrw e => trySettle { s with counter := s.counter + 1, paused := true } (.error e)
      | .pend f out =>
          { s with target := f s.target, counter := s.counter + 1,
                   paused := true, pendingOut := Option.some out }
  | .errEv e =>
      let s1 : ProcState σ := { s with failure := Option.some e }
      if s1.paused then s1 else trySettle s1 (.error e)
  | .endEv =>
      let s1 : ProcState σ := { s with finished := true }
      if s1.paused then s1 else trySettle s1 (.ok s1.target)
  | .settleEv =>
      match s.pendingOut with
      | Option.none => s
      | Option.some (.error e) =>
          trySettle { s with pendingOut := Option.none } (.error e)
      | Option.some (.ok _) =>
          let s1 : ProcState σ := { s with paused := false, pendingOut := Option.none }
          if s1.finished then trySettle s1 (.ok s1.target)
          else
            match s1.failure with
            | Option.some e => trySettle s1 (.error e)
            | Option.none => s1

/-- Initial state of a `process` invocation: fresh context, counter `0`, the
stream resumed (`stream.resume()` runs before any event). -/
def procInit {σ : Type} (t : σ) : ProcState σ :=
  ⟨0, t, false, Option.none, false, Option.none, Option.none⟩

/-- Run the machine over a whole event schedule. -/
def procRun {σ : Type} (pfn : ProcCb σ) (t : σ) (evs : List ProcEv) : ProcState σ :=
  evs.foldl (procStep pfn) (procInit t)

/-!
Observables used to state properties of the walkers: whether the per-element
unit of work at a traversal position settles successfully, the value the user
callback receives there, and the settled result value. -/

/-- Whether a settled outcome is a resolution. -/
def isOkB : Except Err JSVal → Bool
  | .ok _ => true
  | .error _ => false

/-- The value the callback receives at position `i`: the raw element, or the
resolution of a pending element (arbitrary when the pending element fails —
the callback is never invoked there). -/
def seenVal (fn : Cb) (items : JSInputTy) (useGet : Bool)
    (indexes : Option (List String)) (i : Nat) : JSVal :=
  match getElem items useGet (mkKey indexes i) with
  | .val v => v
  | .pend (.ok v) => v
  | .pend (.error _) => .undefined

/-- The settled result value of the per-element unit of work at position `i`
(arbitrary when it fails). -/
def resVal (fn : Cb) (items : JSInputTy) (useGet : Bool)
    (indexes : Option (List String)) (i : Nat) : JSVal :=
  match (elemOutcome fn items useGet indexes i).2 with
  | .ok v => v
  | .error _ => .undefined

/-- The single invocation record position `i` contributes to the trace when
its unit of work settles successfully. -/
def entryAt (fn : Cb) (items : JSInputTy) (useGet : Bool)
    (indexes : Option (List String)) (i : Nat) : JSVal × Key :=
  (seenVal fn items useGet indexes i, mkKey indexes i)

/-- The identity callback `( value ) => value`, used for concrete runs. -/
def idCb : Cb := fun v _ _ => .ret v

/-- The trace a sequential walk over positions
`current, current+1, …, current+n-1` produces: the concatenation of the
per-position invocation records. -/
def walkTrace (fn : Cb) (items : JSInputTy) (useGet : Bool)
    (indexes : Option (List String)) : Nat → Nat → Trace
  | _, 0 => []
  | current, n + 1 =>
      (elemOutcome fn items useGet indexes current).1 ++
        walkTrace fn items useGet indexes (current + 1) n

/-- Whether the per-element unit of work at position `i` yields a truthy
result (the "element satisfies the callback" test of `filter`/`indexOf`). -/
def satB (fn : Cb) (items : JSInputTy) (useGet : Bool)
    (indexes : Option (List String)) (i : Nat) : Bool :=
  (resVal fn items useGet indexes i).truthy

/-- The `(key, raw element)` pairs a successful `filter` walk over positions
`current, …, current+n-1` keeps: exactly the elements whose callback result
is truthy, in traversal order, each paired with the **raw** element as read
from the source (a pending element is kept as the pending handle itself). -/
def keptSpec (fn : Cb) (items : JSInputTy) (useGet : Bool)
    (indexes : Option (List String)) : Nat → Nat → List (Key × Elem)
  | _, 0 => []
  | current, n + 1 =>
      let k := mkKey indexes current
      let rest := keptSpec fn items useGet indexes (current + 1) n
      if satB fn items useGet indexes current then (k, getElem items useGet k) :: rest
      else rest

/-- What `indexOf` resolves with, as a function of the optional first
satisfying position of its visit order: the key at that position, or the
shape-dependent not-found sentinel. -/
def foundOut (indexes : Option (List String)) (o : Option Nat) : IdxOut :=
  match o with
  | Option.some p => .atKey (mkKey indexes p)
  | Option.none => if indexes.isSome then .notFoundUndef else .notFoundNeg1

/-- What `find` resolves with, as a function of the optional satisfying
position: the (resolution of the) raw element there; with no satisfying
position, `undefined` for keyed sources and plain arrays, but for an
array-like object the read of its own `"-1"` property (the `-1` sentinel is
not intercepted — the code executes `items[-1]`). -/
def foundElem (items : JSInputTy) (useGet : Bool) (indexes : Option (List String))
    (o : Option Nat) : Except Err JSVal :=
  match o with
  | Option.some p => coerceElem (getElem items useGet (mkKey indexes p))
  | Option.none =>
      if indexes.isSome then .ok .undefined
      else
        match items with
        | .jsObj _ _ props => coerceElem (lookupProp props "-1")
        | _ => .ok .undefined

/-! ### Basic lemmas about the per-element unit of work -/

section WalkerLemmas

variable (fn : Cb) (items : JSInputTy) (useGet : Bool) (indexes : Option (List String))

theorem isOkB_iff (x : Except Err JSVal) : isOkB x = true ↔ ∃ w, x = .ok w := by
  cases x <;> simp [isOkB]

/-- When the unit of work at `i` settles successfully, its settled value is
`resVal`. -/
theorem elemOutcome_snd_of_ok (i : Nat)
    (h : isOkB (elemOutcome fn items useGet indexes i).2 = true) :
    (elemOutcome fn items useGet indexes i).2 =
      .ok (resVal fn items useGet indexes i) := by
  unfold resVal
  cases hx : (elemOutcome fn items useGet indexes i).2 with
  | ok v => simp
  | error e => rw [hx] at h; simp [isOkB] at h

/-- When the unit of work at `i` settles successfully, the callback was
invoked there exactly once, with the element's (resolved) value and key. -/
theorem elemOutcome_fst_of_ok (i : Nat)
    (h : isOkB (elemOutcome fn items useGet indexes i).2 = true) :
    (elemOutcome fn items useGet indexes i).1 =
      [entryAt fn items useGet indexes i] := by
  unfold elemOutcome elemRun at h ⊢
  unfold entryAt seenVal
  cases hg : getElem items useGet (mkKey indexes i) with
  | val v => simp
  | pend r =>
    cases r with
    | ok v => simp
    | error e => rw [hg] at h; simp [isOkB] at h

/-- Under a successful walk, the trace lists one invocation record per
position, in traversal order. -/
theorem walkTrace_eq_map (n : Nat) : ∀ current : Nat,
    (∀ i, i < n → isOkB (elemOutcome fn items useGet indexes (current + i)).2 = true) →
    walkTrace fn items useGet indexes current n =
      (List.range n).map (fun i => entryAt fn items useGet indexes (current + i)) := by
  induction n with
  | zero => intro current _; simp [walkTrace]
  | succ m ih =>
    intro current hok
    have h0 : isOkB (elemOutcome fn items useGet indexes current).2 = true := by
      have := hok 0 (by omega); simpa using this
    have hrest := ih (current + 1) (fun i hi => by
      have := hok (i + 1) (by omega)
      simpa [Nat.add_assoc, Nat.add_comm 1 i] using this)
    simp only [walkTrace, hrest, elemOutcome_fst_of_ok fn items useGet indexes current h0,
      List.range_succ_eq_map, List.map_cons, List.map_map, List.singleton_append,
      Nat.add_zero]
    congr 1
    apply List.map_congr_left
    intro i _
    simp [Function.comp, Nat.succ_eq_add_one, Nat.add_assoc, Nat.add_comm 1 i]

/-- An exhausted `each` walk: every remaining element settles successfully
and never fires the early-stop test; the walk traces every element and
resolves with `exhaustOut`. -/
theorem eachGo_exhaust (stop : Option Bool) (n : Nat) : ∀ current : Nat,
    (∀ i, i < n → isOkB (elemOutcome fn items useGet indexes (current + i)).2 = true ∧
        stopHitB stop (resVal fn items useGet indexes (current + i)) = false) →
    eachGo fn items useGet indexes stop current n =
      (walkTrace fn items useGet indexes current n, .ok (exhaustOut stop items)) := by
  induction n with
  | zero => intro current _; simp [eachGo, walkTrace]
  | succ m ih =>
    intro current h
    have h0 := h 0 (by omega)
    rw [Nat.add_zero] at h0
    have hrest := ih (current + 1) (fun i hi => by
      have := h (i + 1) (by omega)
      simpa [Nat.add_assoc, Nat.add_comm 1 i] using this)
    simp only [eachGo, elemOutcome_snd_of_ok fn items useGet indexes current h0.1, h0.2,
      hrest, walkTrace, if_false, Bool.false_eq_true]

/-- An `each` walk hitting the early-stop test at the `p`-th remaining
element: the walk traces exactly the elements up to and including that one
and resolves with boolean `true` — whichever value `stopOnReturn` was set
to. -/
theorem eachGo_stop (stop : Option Bool) (p : Nat) : ∀ current rest : Nat,
    (∀ i, i < p → isOkB (elemOutcome fn items useGet indexes (current + i)).2 = true ∧
        stopHitB stop (resVal fn items useGet indexes (current + i)) = false) →
    isOkB (elemOutcome fn items useGet indexes (current + p)).2 = true →
    stopHitB stop (resVal fn items useGet indexes (current + p)) = true →
    eachGo fn items useGet indexes stop current (p + 1 + rest) =
      (walkTrace fn items useGet indexes current (p + 1), .ok .tru) := by
  induction p with
  | zero =>
    intro current rest _ hok hhit
    rw [Nat.add_zero] at hok hhit
    have hone : 0 + 1 + rest = rest + 1 := by omega
    rw [hone]
    simp only [eachGo, elemOutcome_snd_of_ok fn items useGet indexes current hok,
      hhit, if_true, walkTrace, List.append_nil]
  | succ q ih =>
    intro current rest h hok hhit
    have h0 := h 0 (by omega)
    rw [Nat.add_zero] at h0
    have hsh : ∀ i, i < q →
        isOkB (elemOutcome fn items useGet indexes (current + 1 + i)).2 = true ∧
        stopHitB stop (resVal fn items useGet indexes (current + 1 + i)) = false :=
      fun i hi => by
        have := h (i + 1) (by omega)
        simpa [Nat.add_assoc, Nat.add_comm 1 i] using this
    have hok1 : isOkB (elemOutcome fn items useGet indexes (current + 1 + q)).2 = true := by
      simpa [Nat.add_assoc, Nat.add_comm 1 q] using hok
    have hhit1 : stopHitB stop (resVal fn items useGet indexes (current + 1 + q)) = true := by
      simpa [Nat.add_assoc, Nat.add_comm 1 q] using hhit
    have hstep : q + 1 + 1 + rest = (q + 1 + rest) + 1 := by omega
    rw [hstep]
    simp only [eachGo, elemOutcome_snd_of_ok fn items useGet indexes current h0.1, h0.2,
      if_false, Bool.false_eq_true, ih (current + 1) rest hsh hok1 hhit1, walkTrace]

/-- An `each` walk meeting a failed unit of work at the `p`-th remaining
element: the walk fails with that failure; nothing past that element is
traced. -/
theorem eachGo_fail (stop : Option Bool) (p : Nat) : ∀ current rest : Nat, ∀ e : Err,
    (∀ i, i < p → isOkB (elemOutcome fn items useGet indexes (current + i)).2 = true ∧
        stopHitB stop (resVal fn items useGet indexes (current + i)) = false) →
    (elemOutcome fn items useGet indexes (current + p)).2 = .error e →
    eachGo fn items useGet indexes stop current (p + 1 + rest) =
      (walkTrace fn items useGet indexes current (p + 1), .error e) := by
  induction p with
  | zero =>
    intro current rest e _ herr
    rw [Nat.add_zero] at herr
    have hone : 0 + 1 + rest = rest + 1 := by omega
    rw [hone]
    simp only [eachGo, herr, walkTrace, List.append_nil]
  | succ q ih =>
    intro current rest e h herr
    have h0 := h 0 (by omega)
    rw [Nat.add_zero] at h0
    have hsh : ∀ i, i < q →
        isOkB (elemOutcome fn items useGet indexes (current + 1 + i)).2 = true ∧
        stopHitB stop (resVal fn items useGet indexes (current + 1 + i)) = false :=
      fun i hi => by
        have := h (i + 1) (by omega)
        simpa [Nat.add_assoc, Nat.add_comm 1 i] using this
    have herr1 : (elemOutcome fn items useGet indexes (current + 1 + q)).2 = .error e := by
      simpa [Nat.add_assoc, Nat.add_comm 1 q] using herr
    have hstep : q + 1 + 1 + rest = (q + 1 + rest) + 1 := by omega
    rw [hstep]
    simp only [eachGo, elemOutcome_snd_of_ok fn items useGet indexes current h0.1, h0.2,
      if_false, Bool.false_eq_true, ih (current + 1) rest e hsh herr1, walkTrace]

/-- A `map` walk aborting at the `p`-th remaining element whose unit of work
failed: the walk fails with that failure; nothing past that element is
traced. -/
theorem mapGo_fail (p : Nat) : ∀ current rest : Nat, ∀ e : Err,
    (∀ i, i < p → isOkB (elemOutcome fn items useGet indexes (current + i)).2 = true) →
    (elemOutcome fn items useGet indexes (current + p)).2 = .error e →
    mapGo fn items useGet indexes current (p + 1 + rest) =
      (walkTrace fn items useGet indexes current (p + 1), .error e) := by
  induction p with
  | zero =>
    intro current rest e _ herr
    rw [Nat.add_zero] at herr
    have hone : 0 + 1 + rest = rest + 1 := by omega
    rw [hone]
    simp only [mapGo, herr, walkTrace, List.append_nil]
  | succ q ih =>
    intro current rest e h herr
    have h0 := h 0 (by omega)
    rw [Nat.add_zero] at h0
    have hsh : ∀ i, i < q →
        isOkB (elemOutcome fn items useGet indexes (current + 1 + i)).2 = true :=
      fun i hi => by
        have := h (i + 1) (by omega)
        simpa [Nat.add_assoc, Nat.add_comm 1 i] using this
    have herr1 : (elemOutcome fn items useGet indexes (current + 1 + q)).2 = .error e := by
      simpa [Nat.add_assoc, Nat.add_comm 1 q] using herr
    have hstep : q + 1 + 1 + rest = (q + 1 + rest) + 1 := by omega
    rw [hstep]
    simp only [mapGo, elemOutcome_snd_of_ok fn items useGet indexes current h0,
      ih (current + 1) rest e hsh herr1, walkTrace]

/-- The settled result of a sequential `map` walk coincides with
`Promise.all` over the per-element outcomes, paired with the traversal
keys (the bridge between `map` and `multiMap`). -/
theorem mapGo_snd (n : Nat) : ∀ current : Nat,
    (mapGo fn items useGet indexes current n).2 =
      (allOk ((List.range n).map
          (fun i => (elemOutcome fn items useGet indexes (current + i)).2))).map
        (fun vs => ((List.range n).map (fun i => mkKey indexes (current + i))).zip vs) := by
  induction n with
  | zero => intro current; simp [mapGo, allOk, Except.map]
  | succ m ih =>
    intro current
    have hL : (List.range (m + 1)).map
          (fun i => (elemOutcome fn items useGet indexes (current + i)).2) =
        (elemOutcome fn items useGet indexes current).2 ::
          (List.range m).map (fun i => (elemOutcome fn items useGet indexes (current + 1 + i)).2) := by
      simp only [List.range_succ_eq_map, List.map_cons, List.map_map, Nat.add_zero]
      congr 1
      apply List.map_congr_left
      intro i _
      simp only [Function.comp]
      congr 2
      omega
    have hK : (List.range (m + 1)).map (fun i => mkKey indexes (current + i)) =
        mkKey indexes current ::
          (List.range m).map (fun i => mkKey indexes (current + 1 + i)) := by
      simp only [List.range_succ_eq_map, List.map_cons, List.map_map, Nat.add_zero]
      congr 1
      apply List.map_congr_left
      intro i _
      simp only [Function.comp]
      congr 1
      omega
    rw [hL, hK]
    cases hx : (elemOutcome fn items useGet indexes current).2 with
    | error e => simp [mapGo, hx, allOk, Except.map]
    | ok v =>
      simp only [mapGo, hx, allOk]
      rw [ih (current + 1)]
      cases hall : allOk ((List.range m).map
          (fun i => (elemOutcome fn items useGet indexes (current + 1 + i)).2)) with
      | error e => simp [Except.map, hall]
      | ok vs => simp [Except.map, hall, List.zip_cons_cons]

/-- `Promise.all` resolves with exactly one value per input promise. -/
theorem allOk_ok_length {α : Type} : ∀ (l : List (Except Err α)) (vs : List α),
    allOk l = .ok vs → vs.length = l.length := by
  intro l
  induction l with
  | nil => intro vs h; simp only [allOk] at h; cases h; rfl
  | cons x rest ih =>
    intro vs h
    cases x with
    | error e => simp [allOk] at h
    | ok v =>
      simp only [allOk] at h
      cases hall : allOk rest with
      | error e => rw [hall] at h; simp [Except.map] at h
      | ok vs2 =>
        rw [hall] at h
        simp only [Except.map] at h
        cases h
        simp [ih vs2 hall]

/-- A successful `filter` walk traces every element and keeps exactly the
`(key, raw element)` pairs of `keptSpec`. -/
theorem filterGo_allOk (n : Nat) : ∀ current : Nat,
    (∀ i, i < n → isOkB (elemOutcome fn items useGet indexes (current + i)).2 = true) →
    filterGo fn items useGet indexes current n =
      (walkTrace fn items useGet indexes current n,
       .ok (keptSpec fn items useGet indexes current n)) := by
  induction n with
  | zero => intro current _; simp [filterGo, walkTrace, keptSpec]
  | succ m ih =>
    intro current h
    have h0 := h 0 (by omega)
    rw [Nat.add_zero] at h0
    have hrest := ih (current + 1) (fun i hi => by
      have := h (i + 1) (by omega)
      simpa [Nat.add_assoc, Nat.add_comm 1 i] using this)
    have hsnd := elemOutcome_snd_of_ok fn items useGet indexes current h0
    simp only [elemOutcome] at hsnd
    simp only [filterGo, hsnd, hrest, walkTrace, keptSpec, elemOutcome, satB]

/-- An `indexOf` walk skips a block of positions whose units of work settle
successfully with falsy results, tracing each of them exactly once, and
continues unchanged on the rest of the visit order. -/
theorem indexOfGo_skip (ps : List Nat) : ∀ qs : List Nat,
    (∀ i ∈ ps, isOkB (elemOutcome fn items useGet indexes i).2 = true ∧
        satB fn items useGet indexes i = false) →
    indexOfGo fn items useGet indexes (ps ++ qs) =
      (ps.map (entryAt fn items useGet indexes) ++ (indexOfGo fn items useGet indexes qs).1,
       (indexOfGo fn items useGet indexes qs).2) := by
  induction ps with
  | nil => intro qs _; simp
  | cons p rest ih =>
    intro qs h
    have h0 := h p (by simp)
    have hsat : (resVal fn items useGet indexes p).truthy = false := h0.2
    have ihq := ih qs (fun i hi => h i (by simp [hi]))
    simp only [List.cons_append, indexOfGo,
      elemOutcome_snd_of_ok fn items useGet indexes p h0.1, hsat, if_false,
      Bool.false_eq_true, elemOutcome_fst_of_ok fn items useGet indexes p h0.1,
      List.map_cons, List.append_eq, List.nil_append]
    rw [ihq]

/-- An `indexOf` walk meeting a successful, truthy unit of work at the head
of the remaining visit order resolves with that position's key, having
invoked the callback there exactly once. -/
theorem indexOfGo_found (p : Nat) (rest : List Nat)
    (hok : isOkB (elemOutcome fn items useGet indexes p).2 = true)
    (hsat : satB fn items useGet indexes p = true) :
    indexOfGo fn items useGet indexes (p :: rest) =
      ([entryAt fn items useGet indexes p], .ok (.atKey (mkKey indexes p))) := by
  have hsat2 : (resVal fn items useGet indexes p).truthy = true := hsat
  simp only [indexOfGo, elemOutcome_snd_of_ok fn items useGet indexes p hok, hsat2,
    if_true, elemOutcome_fst_of_ok fn items useGet indexes p hok]

/-- An `indexOf` walk meeting a failed unit of work at the head of the
remaining visit order fails with that failure. -/
theorem indexOfGo_fail_head (p : Nat) (rest : List Nat) (e : Err)
    (herr : (elemOutcome fn items useGet indexes p).2 = .error e) :
    indexOfGo fn items useGet indexes (p :: rest) =
      ((elemOutcome fn items useGet indexes p).1, .error e) := by
  simp only [indexOfGo, herr]

/-- Under an all-successful visit order, `indexOf` resolves with the key of
the first satisfying position of the visit order, or the shape-dependent
not-found sentinel. -/
theorem indexOfGo_snd_allOk (ps : List Nat)
    (h : ∀ i ∈ ps, isOkB (elemOutcome fn items useGet indexes i).2 = true) :
    (indexOfGo fn items useGet indexes ps).2 =
      .ok (foundOut indexes (ps.find? (satB fn items useGet indexes))) := by
  induction ps with
  | nil => simp [indexOfGo, foundOut]
  | cons p rest ih =>
    have h0 := h p (by simp)
    cases hsat : satB fn items useGet indexes p with
    | true =>
      have hfound := indexOfGo_found fn items useGet indexes p rest h0 hsat
      rw [hfound, List.find?_cons, hsat]
      simp [foundOut]
    | false =>
      have hskip := indexOfGo_skip fn items useGet indexes [p] rest
        (fun i hi => by simp at hi; subst hi; exact ⟨h0, hsat⟩)
      simp only [List.singleton_append] at hskip
      rw [hskip, List.find?_cons, hsat]
      exact ih (fun i hi => h i (by simp [hi]))

end WalkerLemmas

/-! ### List facts used to relate forward and backward searches and the
`map`/`multiMap` collectors -/

theorem find?_eq_head_filter {α : Type} (p : α → Bool) (l : List α) :
    l.find? p = (l.filter p).head? := by
  induction l with
  | nil => simp
  | cons a rest ih =>
    cases hp : p a with
    | true => simp [List.find?_cons_of_pos _ hp, List.filter_cons, hp]
    | false =>
      rw [List.find?_cons_of_neg _ (by simp [hp]), List.filter_cons, hp]
      simpa using ih

/-- Searching a reversed list for the first match finds the last match of
the forward order. -/
theorem find?_reverse_eq_getLast_filter {α : Type} (p : α → Bool) (l : List α) :
    l.reverse.find? p = (l.filter p).getLast? := by
  rw [find?_eq_head_filter, List.filter_reverse, List.head?_reverse]

/-- Reading a list at every position in order reproduces the list. -/
theorem map_getD_range (ks : List String) :
    (List.range ks.length).map (fun i => ks.getD i "") = ks := by
  induction ks with
  | nil => simp
  | cons k rest ih =>
    have hc : (List.range rest.length).map ((fun i => (k :: rest).getD i "") ∘ Nat.succ)
        = (List.range rest.length).map (fun i => rest.getD i "") :=
      List.map_congr_left (fun i _ => by simp)
    simp only [List.length_cons, List.range_succ_eq_map, List.map_cons, List.map_map,
      List.getD_cons_zero]
    rw [hc, ih]

/-! ### Facts about the traversal plan and the `find` lookup -/

/-- The traversal fields of the plan — key list, count, access mode — do not
depend on the collector options. -/
theorem prepare_fields (items : JSInputTy) (c a c2 a2 : Bool) (pl pl2 : Plan)
    (h1 : prepareIteration items c a = .ok pl)
    (h2 : prepareIteration items c2 a2 = .ok pl2) :
    pl.indexes = pl2.indexes ∧ pl.length = pl2.length ∧ pl.useGet = pl2.useGet := by
  cases items with
  | jsMap entries =>
    simp only [prepareIteration, Except.ok.injEq] at h1 h2
    subst h1; subst h2; exact ⟨rfl, rfl, rfl⟩
  | jsArray elems =>
    simp only [prepareIteration, Except.ok.injEq] at h1 h2
    subst h1; subst h2; exact ⟨rfl, rfl, rfl⟩
  | jsObj len elems props =>
    cases len with
    | none =>
      simp only [prepareIteration, Except.ok.injEq] at h1 h2
      subst h1; subst h2; exact ⟨rfl, rfl, rfl⟩
    | some n =>
      by_cases hn : n > -1
      · simp only [prepareIteration, hn, if_true, Except.ok.injEq] at h1 h2
        subst h1; subst h2; exact ⟨rfl, rfl, rfl⟩
      · simp only [prepareIteration, hn, if_false, Except.ok.injEq] at h1 h2
        subst h1; subst h2; exact ⟨rfl, rfl, rfl⟩
  | jsPrim => simp [prepareIteration] at h1

/-- For a found key of the traversal, `find`'s lookup continuation reads the
raw element exactly as the walker would, and resolves with its resolution. -/
theorem findLookup_atKey (items : JSInputTy) (c a : Bool) (pl : Plan) (p : Nat)
    (h : prepareIteration items c a = .ok pl) :
    findLookup items (.atKey (mkKey pl.indexes p)) =
      coerceElem (getElem items pl.useGet (mkKey pl.indexes p)) := by
  cases items with
  | jsMap entries =>
    simp only [prepareIteration, Except.ok.injEq] at h
    subst h
    simp [findLookup, getElem, mkKey]
  | jsArray elems =>
    simp only [prepareIteration, Except.ok.injEq] at h
    subst h
    simp [findLookup, getElem, mkKey]
  | jsObj len elems props =>
    cases len with
    | none =>
      simp only [prepareIteration, Except.ok.injEq] at h
      subst h
      simp [findLookup, getElem, mkKey]
    | some n =>
      by_cases hn : n > -1
      · simp only [prepareIteration, hn, if_true, Except.ok.injEq] at h
        subst h
        simp [findLookup, getElem, mkKey]
      · simp only [prepareIteration, hn, if_false, Except.ok.injEq] at h
        subst h
        simp [findLookup, getElem, mkKey]
  | jsPrim => simp [prepareIteration] at h

/-! ### Facts about the `process` state machine -/

/-- While the stream is paused on an outstanding per-unit promise, `end` and
`error` signals are only recorded: the operation neither resolves nor fails,
the stream stays paused, and the context and outstanding promise are
untouched. -/
theorem procSignals_no_settle {σ : Type} (pfn : ProcCb σ) (evs : List ProcEv) :
    ∀ s : ProcState σ, s.paused = true → s.settled = Option.none →
    (∀ ev ∈ evs, ev = ProcEv.endEv ∨ ∃ e, ev = ProcEv.errEv e) →
    (evs.foldl (procStep pfn) s).paused = true ∧
      (evs.foldl (procStep pfn) s).settled = Option.none ∧
      (evs.foldl (procStep pfn) s).pendingOut = s.pendingOut ∧
      (evs.foldl (procStep pfn) s).target = s.target := by
  induction evs with
  | nil => intro s hp hs _; exact ⟨hp, hs, rfl, rfl⟩
  | cons ev rest ih =>
    intro s hp hs hev
    have h0 := hev ev (by simp)
    have hstep : (procStep pfn s ev).paused = true ∧
        (procStep pfn s ev).settled = Option.none ∧
        (procStep pfn s ev).pendingOut = s.pendingOut ∧
        (procStep pfn s ev).target = s.target := by
      rcases h0 with rfl | ⟨e, rfl⟩ <;> simp [procStep, hp, hs]
    have := ih (procStep pfn s ev) hstep.1 hstep.2.1 (fun x hx => hev x (by simp [hx]))
    simp only [List.foldl_cons]
    exact ⟨this.1, this.2.1, by rw [this.2.2.1, hstep.2.2.1],
      by rw [this.2.2.2, hstep.2.2.2]⟩

/-- Peeling a walk's trace from the far end. -/
theorem walkTrace_snoc (fn : Cb) (items : JSInputTy) (useGet : Bool)
    (indexes : Option (List String)) (n : Nat) : ∀ current : Nat,
    walkTrace fn items useGet indexes current (n + 1) =
      walkTrace fn items useGet indexes current n ++
        (elemOutcome fn items useGet indexes (current + n)).1 := by
  induction n with
  | zero => intro current; simp [walkTrace]
  | succ m ih =>
    intro current
    have hm := ih (current + 1)
    calc walkTrace fn items useGet indexes current (m + 1 + 1)
        = (elemOutcome fn items useGet indexes current).1 ++
            walkTrace fn items useGet indexes (current + 1) (m + 1) := rfl
      _ = (elemOutcome fn items useGet indexes current).1 ++
            (walkTrace fn items useGet indexes (current + 1) m ++
              (elemOutcome fn items useGet indexes (current + 1 + m)).1) := by rw [hm]
      _ = walkTrace fn items useGet indexes current (m + 1) ++
            (elemOutcome fn items useGet indexes (current + (m + 1))).1 := by
          rw [show current + 1 + m = current + (m + 1) from by omega]
          simp [walkTrace, List.append_assoc]

/-- A successful plan exists for the same container whatever the collector
options, with the same traversal fields. -/
theorem prepare_ok_fields (items : JSInputTy) (c a c2 a2 : Bool) (pl : Plan)
    (h : prepareIteration items c a = .ok pl) :
    ∃ pl2, prepareIteration items c2 a2 = .ok pl2 ∧ pl2.indexes = pl.indexes ∧
      pl2.length = pl.length ∧ pl2.useGet = pl.useGet := by
  cases items with
  | jsMap entries =>
    simp only [prepareIteration, Except.ok.injEq] at h
    subst h
    exact ⟨_, rfl, rfl, rfl, rfl⟩
  | jsArray elems =>
    simp only [prepareIteration, Except.ok.injEq] at h
    subst h
    exact ⟨_, rfl, rfl, rfl, rfl⟩
  | jsObj len elems props =>
    cases len with
    | none =>
      simp only [prepareIteration, Except.ok.injEq] at h
      subst h
      exact ⟨_, rfl, rfl, rfl, rfl⟩
    | some n =>
      by_cases hn : n > -1
      · simp only [prepareIteration, hn, if_true, Except.ok.injEq] at h
        subst h
        exact ⟨⟨Option.none, n.toNat, false, if c2 then .carr else .cnone⟩,
          by simp [prepareIteration, hn], rfl, rfl, rfl⟩
      · simp only [prepareIteration, hn, if_false, Except.ok.injEq] at h
        subst h
        exact ⟨⟨Option.some (props.map Prod.fst), props.length, false,
            if c2 then (if a2 then .carr else .cobj) else .cnone⟩,
          by simp [prepareIteration, hn], rfl, rfl, rfl⟩
  | jsPrim => simp [prepareIteration] at h

/-! ### Claim theorems -/

/-- C1, counterexample: with `stopOnReturn: false`, on the single-element
array `[0]` with the identity callback — whose result `0` is falsy — the code
resolves with boolean `true`, not the claimed `false`; and on `[1]` — no
falsy result at all — it resolves with the source collection, not the claimed
boolean `true` (the negation of the flag). -/
theorem each_stopOnReturn_false_claim_counterexample :
    PromiseUtil.each (.jsArray [.val (.num 0)]) idCb (Option.some false) =
      .ok ([(.num 0, .pos 0)], .ok .tru) ∧
    PromiseUtil.each (.jsArray [.val (.num 1)]) idCb (Option.some false) =
      .ok ([(.num 1, .pos 0)], .ok (.coll (.jsArray [.val (.num 1)]))) ∧
    EachOut.tru ≠ EachOut.fls ∧
    EachOut.coll (.jsArray [.val (.num 1)]) ≠ EachOut.tru := by
  exact ⟨by decide, by decide, by decide, by decide⟩

/-- C1, amended: with `stopOnReturn: false` the walk stops — resolving with
boolean **true** — the first time a callback result is falsy but not
nullish (nullish results never fire the stop test), and if it exhausts all
elements without firing the stop it resolves with the **source container**
(the falsy flag selects the collection branch of
`stopOnReturn ? false : collection`), not with a boolean. -/
theorem each_stopOnReturn_false_amended (items : JSInputTy) (fn : Cb) (pl : Plan)
    (hplan : prepareIteration items false false = .ok pl) :
    (∀ p rest, pl.length = p + 1 + rest →
      (∀ i, i < p → isOkB (elemOutcome fn items pl.useGet pl.indexes i).2 = true ∧
          stopHitB (Option.some false) (resVal fn items pl.useGet pl.indexes i) = false) →
      isOkB (elemOutcome fn items pl.useGet pl.indexes p).2 = true →
      (resVal fn items pl.useGet pl.indexes p).isNullish = false →
      (resVal fn items pl.useGet pl.indexes p).truthy = false →
      PromiseUtil.each items fn (Option.some false) =
        .ok (walkTrace fn items pl.useGet pl.indexes 0 (p + 1), .ok .tru)) ∧
    ((∀ i, i < pl.length → isOkB (elemOutcome fn items pl.useGet pl.indexes i).2 = true ∧
          stopHitB (Option.some false) (resVal fn items pl.useGet pl.indexes i) = false) →
      PromiseUtil.each items fn (Option.some false) =
        .ok (walkTrace fn items pl.useGet pl.indexes 0 pl.length, .ok (.coll items))) := by
  have heq : PromiseUtil.each items fn (Option.some false) =
      .ok (eachGo fn items pl.useGet pl.indexes (Option.some false) 0 pl.length) := by
    unfold PromiseUtil.each
    rw [hplan]
  constructor
  · intro p rest hlen hpre hok hnn hfal
    rw [heq, hlen]
    have hhit : stopHitB (Option.some false) (resVal fn items pl.useGet pl.indexes (0 + p)) =
        true := by
      simp [stopHitB, hnn, hfal]
    have hx := eachGo_stop fn items pl.useGet pl.indexes (Option.some false) p 0 rest
      (fun i hi => by simpa using hpre i hi) (by simpa using hok) hhit
    rw [hx]
  · intro hall
    rw [heq]
    have hx := eachGo_exhaust fn items pl.useGet pl.indexes (Option.some false) pl.length 0
      (fun i hi => by simpa using hall i hi)
    rw [hx]
    simp [exhaustOut]

/-- C1, amended, witness: on the array `[null, "", 7]` with the identity
callback, the nullish result at position 0 does not fire the stop, the
non-nullish falsy result `""` at position 1 stops the walk resolving `true`;
and the array `[null, 1]` exhausts (nullish and truthy results never fire
the stop), resolving with the source array itself. -/
theorem each_stopOnReturn_false_amended_witness :
    PromiseUtil.each (.jsArray [.val .nullv, .val (.str ""), .val (.num 7)]) idCb
        (Option.some false) =
      .ok ([(.nullv, .pos 0), (.str "", .pos 1)], .ok .tru) ∧
    PromiseUtil.each (.jsArray [.val .nullv, .val (.num 1)]) idCb (Option.some false) =
      .ok ([(.nullv, .pos 0), (.num 1, .pos 1)],
           .ok (.coll (.jsArray [.val .nullv, .val (.num 1)]))) := by
  constructor
  · have h := (each_stopOnReturn_false_amended
        (.jsArray [.val .nullv, .val (.str ""), .val (.num 7)]) idCb
        ⟨Option.none, 3, false, .cnone⟩ rfl).1 1 1 rfl (by decide) (by decide)
        (by decide) (by decide)
    simpa using h
  · have h := (each_stopOnReturn_false_amended
        (.jsArray [.val .nullv, .val (.num 1)]) idCb
        ⟨Option.none, 2, false, .cnone⟩ rfl).2 (by decide)
    simpa using h

/-- C2: `every` as coded delegates to `each` with `stopOnReturn: true` — not
`false` — and negates, so on the array `[1, 2]`, whose every element is
truthy, it stops at the very first element and resolves with boolean
`false`, although its own documentation promises `true` when every item
satisfies the callback. -/
theorem every_code_bug_eval :
    PromiseUtil.every (.jsArray [.val (.num 1), .val (.num 2)]) idCb =
      .ok ([(.num 1, .pos 0)], .ok false) ∧
    PromiseUtil.every (.jsArray [.val (.num 0)]) idCb =
      .ok ([(.num 0, .pos 0)], .ok true) := by
  exact ⟨by decide, by decide⟩

/-- C3: for any supported container — hence for all four shapes — a walk
whose per-element units of work all settle successfully invokes the callback
exactly once per element, in traversal order (the trace lists exactly the
`length` invocation records, ordered by position), and resolves with the
very same container that was passed in. -/
theorem each_once_in_order_resolves_source (items : JSInputTy) (fn : Cb) (pl : Plan)
    (hplan : prepareIteration items false false = .ok pl)
    (hok : ∀ i, i < pl.length → isOkB (elemOutcome fn items pl.useGet pl.indexes i).2 = true) :
    PromiseUtil.each items fn Option.none =
      .ok ((List.range pl.length).map (fun i => entryAt fn items pl.useGet pl.indexes i),
           .ok (.coll items)) := by
  have heq : PromiseUtil.each items fn Option.none =
      .ok (eachGo fn items pl.useGet pl.indexes Option.none 0 pl.length) := by
    unfold PromiseUtil.each
    rw [hplan]
  rw [heq]
  have hx := eachGo_exhaust fn items pl.useGet pl.indexes Option.none pl.length 0
    (fun i hi => ⟨by simpa using hok i (by omega), by simp [stopHitB]⟩)
  rw [hx, walkTrace_eq_map fn items pl.useGet pl.indexes pl.length 0
    (fun i hi => by simpa using hok i hi)]
  simp [exhaustOut]

/-- C3, witness: a two-element `Map` with one pending element — the callback
runs once per element, in key order, on resolved values, and `each` resolves
with the original map. -/
theorem each_once_in_order_witness :
    PromiseUtil.each (.jsMap [("a", .val (.num 1)), ("b", .pend (.ok (.num 2)))]) idCb
        Option.none =
      .ok ([(.num 1, .name "a"), (.num 2, .name "b")],
           .ok (.coll (.jsMap [("a", .val (.num 1)), ("b", .pend (.ok (.num 2)))]))) := by
  have h := each_once_in_order_resolves_source
    (.jsMap [("a", .val (.num 1)), ("b", .pend (.ok (.num 2)))]) idCb
    ⟨Option.some ["a", "b"], 2, true, .cnone⟩ rfl (by decide)
  simpa using h

/-- C4: a pending element is resolved before the callback sees it — its
invocation record carries the pending value's resolution, never the handle —
and when a pending element fails, the sequential operations (`each` and
`map`, the cited walkers) fail with exactly that failure, having invoked the
callback only on the elements before it: no remaining element is visited. -/
theorem pending_element_resolution_and_abort (items : JSInputTy) (fn : Cb) (asArray : Bool)
    (pl : Plan) (p rest : Nat) (pr : Except Err JSVal)
    (hplan : prepareIteration items false false = .ok pl)
    (hlen : pl.length = p + 1 + rest)
    (hpre : ∀ i, i < p → isOkB (elemOutcome fn items pl.useGet pl.indexes i).2 = true)
    (hpend : getElem items pl.useGet (mkKey pl.indexes p) = .pend pr) :
    (∀ v, pr = .ok v →
      (elemOutcome fn items pl.useGet pl.indexes p).1 = [(v, mkKey pl.indexes p)]) ∧
    (∀ e, pr = .error e →
      PromiseUtil.each items fn Option.none =
        .ok ((List.range p).map (fun i => entryAt fn items pl.useGet pl.indexes i),
             .error e) ∧
      PromiseUtil.map items fn asArray =
        .ok ((List.range p).map (fun i => entryAt fn items pl.useGet pl.indexes i),
             .error e)) := by
  constructor
  · intro v hv
    subst hv
    simp [elemOutcome, elemRun, hpend]
  · intro e he
    subst he
    have herr : (elemOutcome fn items pl.useGet pl.indexes p).2 = .error e := by
      simp [elemOutcome, elemRun, hpend]
    have htr0 : (elemOutcome fn items pl.useGet pl.indexes p).1 = [] := by
      simp [elemOutcome, elemRun, hpend]
    have htrace : walkTrace fn items pl.useGet pl.indexes 0 (p + 1) =
        (List.range p).map (fun i => entryAt fn items pl.useGet pl.indexes i) := by
      rw [walkTrace_snoc fn items pl.useGet pl.indexes p 0,
        walkTrace_eq_map fn items pl.useGet pl.indexes p 0
          (fun i hi => by simpa using hpre i hi)]
      simp [htr0]
    constructor
    · have heq : PromiseUtil.each items fn Option.none =
          .ok (eachGo fn items pl.useGet pl.indexes Option.none 0 pl.length) := by
        unfold PromiseUtil.each
        rw [hplan]
      rw [heq, hlen]
      have hx := eachGo_fail fn items pl.useGet pl.indexes Option.none p 0 rest e
        (fun i hi => ⟨by simpa using hpre i hi, by simp [stopHitB]⟩)
        (by simpa using herr)
      rw [hx, htrace]
    · obtain ⟨pl2, hplan2, hidx, hlen2, hug⟩ :=
        prepare_ok_fields items false false true asArray pl hplan
      have heq : PromiseUtil.map items fn asArray =
          .ok ((mapGo fn items pl2.useGet pl2.indexes 0 pl2.length).1,
               (mapGo fn items pl2.useGet pl2.indexes 0 pl2.length).2.map
                 (assembleKept pl2.collKind)) := by
        unfold PromiseUtil.map
        rw [hplan2]
      rw [heq, hidx, hug, hlen2, hlen]
      have hx := mapGo_fail fn items pl.useGet pl.indexes p 0 rest e
        (fun i hi => by simpa using hpre i hi) (by simpa using herr)
      rw [hx, htrace]
      simp [Except.map]

/-- C4, witness: a pending element resolving to `9` reaches the callback as
`9`; a pending element failing at position 1 of a three-element array makes
both `each` and `map` fail with that failure after having invoked the
callback only on position 0. -/
theorem pending_element_resolution_and_abort_witness :
    (elemOutcome idCb (.jsArray [.pend (.ok (.num 9))]) false Option.none 0).1 =
      [(.num 9, .pos 0)] ∧
    PromiseUtil.each
        (.jsArray [.val (.num 1), .pend (.error (.userErr 5)), .val (.num 3)]) idCb
        Option.none =
      .ok ([(.num 1, .pos 0)], .error (.userErr 5)) ∧
    PromiseUtil.map
        (.jsArray [.val (.num 1), .pend (.error (.userErr 5)), .val (.num 3)]) idCb
        true =
      .ok ([(.num 1, .pos 0)], .error (.userErr 5)) := by
  refine ⟨?_, ?_, ?_⟩
  · exact (pending_element_resolution_and_abort (.jsArray [.pend (.ok (.num 9))]) idCb true
      ⟨Option.none, 1, false, .cnone⟩ 0 0 (.ok (.num 9)) rfl rfl (by decide) rfl).1
      (.num 9) rfl
  · have h := (pending_element_resolution_and_abort
      (.jsArray [.val (.num 1), .pend (.error (.userErr 5)), .val (.num 3)]) idCb true
      ⟨Option.none, 3, false, .cnone⟩ 1 1 (.error (.userErr 5)) rfl rfl (by decide) rfl).2
      (.userErr 5) rfl
    simpa using h.1
  · have h := (pending_element_resolution_and_abort
      (.jsArray [.val (.num 1), .pend (.error (.userErr 5)), .val (.num 3)]) idCb true
      ⟨Option.none, 3, false, .cnone⟩ 1 1 (.error (.userErr 5)) rfl rfl (by decide) rfl).2
      (.userErr 5) rfl
    simpa using h.2

/-- Zipping the traversal keys of a keyed source with collected values and
reading the key names back yields the plain key/value pairing `multiMap`
writes. -/
theorem zip_keyName_eq {α : Type} (ks : List String) (vs : List α) :
    (((List.range ks.length).map (fun i => mkKey (Option.some ks) i)).zip vs).map
      (fun p => (keyName p.1, p.2)) = ks.zip vs := by
  have h0 := map_getD_range ks
  have h1 : (List.range ks.length).map (fun i => mkKey (Option.some ks) i) =
      ks.map Key.name := by
    calc (List.range ks.length).map (fun i => mkKey (Option.some ks) i)
        = ((List.range ks.length).map (fun i => ks.getD i "")).map Key.name := by
          rw [List.map_map]
          rfl
      _ = ks.map Key.name := by rw [h0]
  rw [h1, List.zip_map_left, List.map_map]
  have h2 : ((fun p : Key × α => (keyName p.1, p.2)) ∘ Prod.map Key.name id) =
      (fun p : String × α => p) := by
    funext p
    cases p
    simp [Prod.map, keyName]
  rw [h2]
  simp

/-- Sequentially collected `map` pairs, assembled into the collector, agree
with `Promise.all` over the per-element outcomes assembled the `multiMap`
way — provided a keyed collector comes with the traversal's key list (which
`prepareIteration` guarantees). -/
theorem mapGo_assemble_eq (fn : Cb) (items : JSInputTy) (useGet : Bool)
    (idx : Option (List String)) (len : Nat) (ck : CollKind)
    (hck : (ck = .carr ∨ ck = .cnone) ∨
      (∃ ks, idx = Option.some ks ∧ len = ks.length)) :
    (mapGo fn items useGet idx 0 len).2.map (assembleKept ck) =
      (allOk ((List.range len).map (fun i => (elemOutcome fn items useGet idx i).2))).map
        (assembleMulti ck idx) := by
  have hsnd := mapGo_snd fn items useGet idx len 0
  simp only [Nat.zero_add] at hsnd
  rw [hsnd]
  cases hall : allOk ((List.range len).map (fun i => (elemOutcome fn items useGet idx i).2)) with
  | error e => simp [Except.map]
  | ok vs =>
    have hvs : vs.length = len := by
      have := allOk_ok_length _ vs hall
      simpa using this
    have hkeyslen : vs.length ≤ ((List.range len).map (fun i => mkKey idx i)).length := by
      simp [hvs]
    simp only [Except.map]
    congr 1
    rcases hck with hflat | ⟨ks, hidx, hlen⟩
    · rcases hflat with rfl | rfl
      · simp [assembleKept, assembleMulti, List.map_snd_zip _ _ hkeyslen]
      · simp [assembleKept, assembleMulti, List.map_snd_zip _ _ hkeyslen]
    · subst hidx
      subst hlen
      cases ck with
      | carr => simp [assembleKept, assembleMulti, List.map_snd_zip _ _ hkeyslen]
      | cnone => simp [assembleKept, assembleMulti, List.map_snd_zip _ _ hkeyslen]
      | cmap => simp [assembleKept, assembleMulti, zip_keyName_eq]
      | cobj => simp [assembleKept, assembleMulti, zip_keyName_eq]

/-- The shape-independent core of the `map`/`multiMap` agreement. -/
theorem map_multiMap_core (items : JSInputTy) (fn : Cb) (asArray : Bool) (pl : Plan)
    (hplan : prepareIteration items true asArray = .ok pl)
    (hck : (pl.collKind = .carr ∨ pl.collKind = .cnone) ∨
      (∃ ks, pl.indexes = Option.some ks ∧ pl.length = ks.length))
    (t : Trace) (r : Except Err (ResColl JSVal))
    (h : PromiseUtil.map items fn asArray = .ok (t, r)) :
    PromiseUtil.multiMap items fn asArray = .ok r := by
  have heqm : PromiseUtil.map items fn asArray =
      .ok ((mapGo fn items pl.useGet pl.indexes 0 pl.length).1,
           (mapGo fn items pl.useGet pl.indexes 0 pl.length).2.map
             (assembleKept pl.collKind)) := by
    unfold PromiseUtil.map
    rw [hplan]
  rw [heqm] at h
  have hr : r = (mapGo fn items pl.useGet pl.indexes 0 pl.length).2.map
      (assembleKept pl.collKind) := by
    have hp := Except.ok.inj h
    have := congrArg Prod.snd hp
    simpa using this.symm
  have heqM : PromiseUtil.multiMap items fn asArray =
      .ok ((allOk ((List.range pl.length).map
          (fun i => (elemOutcome fn items pl.useGet pl.indexes i).2))).map
        (assembleMulti pl.collKind pl.indexes)) := by
    unfold PromiseUtil.multiMap
    rw [hplan]
  rw [heqM, hr, mapGo_assemble_eq fn items pl.useGet pl.indexes pl.length pl.collKind hck]

/-- C5: whenever `map` resolves, `multiMap` resolves with a result of
identical content — same collection family, same keys/positions, same values
in source traversal order — for every supported container, every callback
and both `asArray` settings (and both agree on the failure, too, when an
element or callback fails). -/
theorem map_multiMap_agree (items : JSInputTy) (fn : Cb) (asArray : Bool)
    (t : Trace) (r : Except Err (ResColl JSVal))
    (h : PromiseUtil.map items fn asArray = .ok (t, r)) :
    PromiseUtil.multiMap items fn asArray = .ok r := by
  cases items with
  | jsPrim => simp [PromiseUtil.map, prepareIteration] at h
  | jsMap entries =>
    cases asArray with
    | true =>
      exact map_multiMap_core (.jsMap entries) fn true
        ⟨Option.some (entries.map Prod.fst), entries.length, true, .carr⟩ rfl
        (Or.inl (Or.inl rfl)) t r h
    | false =>
      exact map_multiMap_core (.jsMap entries) fn false
        ⟨Option.some (entries.map Prod.fst), entries.length, true, .cmap⟩ rfl
        (Or.inr ⟨entries.map Prod.fst, rfl, by simp⟩) t r h
  | jsArray elems =>
    exact map_multiMap_core (.jsArray elems) fn asArray
      ⟨Option.none, elems.length, false, .carr⟩ rfl
      (Or.inl (Or.inl rfl)) t r h
  | jsObj len elems props =>
    cases len with
    | some n =>
      by_cases hn : n > -1
      · exact map_multiMap_core (.jsObj (Option.some n) elems props) fn asArray
          ⟨Option.none, n.toNat, false, .carr⟩
          (by simp [prepareIteration, hn]) (Or.inl (Or.inl rfl)) t r h
      · cases asArray with
        | true =>
          exact map_multiMap_core (.jsObj (Option.some n) elems props) fn true
            ⟨Option.some (props.map Prod.fst), props.length, false, .carr⟩
            (by simp [prepareIteration, hn]) (Or.inl (Or.inl rfl)) t r h
        | false =>
          exact map_multiMap_core (.jsObj (Option.some n) elems props) fn false
            ⟨Option.some (props.map Prod.fst), props.length, false, .cobj⟩
            (by simp [prepareIteration, hn])
            (Or.inr ⟨props.map Prod.fst, rfl, by simp⟩) t r h
    | none =>
      cases asArray with
      | true =>
        exact map_multiMap_core (.jsObj Option.none elems props) fn true
          ⟨Option.some (props.map Prod.fst), props.length, false, .carr⟩ rfl
          (Or.inl (Or.inl rfl)) t r h
      | false =>
        exact map_multiMap_core (.jsObj Option.none elems props) fn false
          ⟨Option.some (props.map Prod.fst), props.length, false, .cobj⟩ rfl
          (Or.inr ⟨props.map Prod.fst, rfl, by simp⟩) t r h

/-- C5, witness: on a two-element `Map` with a pending element and
`asArray: false`, `multiMap` resolves with exactly the `Map`-shaped content
that `map` resolved with. -/
theorem map_multiMap_agree_witness :
    PromiseUtil.multiMap (.jsMap [("a", .val (.num 2)), ("b", .pend (.ok (.num 3)))])
        idCb false =
      .ok (.ok (.rmap [("a", .num 2), ("b", .num 3)])) :=
  map_multiMap_agree (.jsMap [("a", .val (.num 2)), ("b", .pend (.ok (.num 3)))]) idCb false
    [(.num 2, .name "a"), (.num 3, .name "b")]
    (.ok (.rmap [("a", .num 2), ("b", .num 3)])) (by decide)

/-- `find`'s lookup continuation, composed with the found-position
abstraction: key hit → (resolution of the) raw element; no hit → the
shape-dependent not-found result (`undefined`, except the `"-1"` property
read on an array-like object). -/
theorem findLookup_foundOut (items : JSInputTy) (c a : Bool) (pl : Plan)
    (hplan : prepareIteration items c a = .ok pl) (o : Option Nat) :
    findLookup items (foundOut pl.indexes o) =
      foundElem items pl.useGet pl.indexes o := by
  cases o with
  | some p => exact findLookup_atKey items c a pl p hplan
  | none =>
    cases h : pl.indexes.isSome <;> cases items <;>
      simp [foundOut, foundElem, findLookup, h]

/-- Whenever `indexOf` resolves, `find` resolves with the same trace and the
lookup of the found key. -/
theorem find_of_indexOf_ok (items : JSInputTy) (fn : Cb) (getLast : Bool)
    (t : Trace) (out : IdxOut)
    (h : PromiseUtil.indexOf items fn getLast = .ok (t, .ok out)) :
    PromiseUtil.find items fn getLast = .ok (t, findLookup items out) := by
  unfold PromiseUtil.find
  rw [h]

/-- C6: `indexOf` resolves with the key (keyed sources) or numeric position
(linear sources) of the first element, in traversal direction, whose callback
result is truthy — tracing exactly the elements up to and including it — and
when no element satisfies the callback it resolves with the shape-dependent
not-found sentinel (`undefined` for keyed sources, `-1` for linear ones),
having visited every element of the visit order exactly once. -/
theorem indexOf_first_match_or_sentinel (items : JSInputTy) (fn : Cb) (getLast : Bool)
    (pl : Plan) (hplan : prepareIteration items false false = .ok pl) :
    (∀ pre p suf, visitOrder getLast pl.length = pre ++ p :: suf →
      (∀ i ∈ pre, isOkB (elemOutcome fn items pl.useGet pl.indexes i).2 = true ∧
          satB fn items pl.useGet pl.indexes i = false) →
      isOkB (elemOutcome fn items pl.useGet pl.indexes p).2 = true →
      satB fn items pl.useGet pl.indexes p = true →
      PromiseUtil.indexOf items fn getLast =
        .ok (pre.map (entryAt fn items pl.useGet pl.indexes) ++
              [entryAt fn items pl.useGet pl.indexes p],
             .ok (.atKey (mkKey pl.indexes p)))) ∧
    ((∀ i ∈ visitOrder getLast pl.length,
        isOkB (elemOutcome fn items pl.useGet pl.indexes i).2 = true ∧
        satB fn items pl.useGet pl.indexes i = false) →
      PromiseUtil.indexOf items fn getLast =
        .ok ((visitOrder getLast pl.length).map (entryAt fn items pl.useGet pl.indexes),
             .ok (if pl.indexes.isSome then .notFoundUndef else .notFoundNeg1))) := by
  have heq : PromiseUtil.indexOf items fn getLast =
      .ok (indexOfGo fn items pl.useGet pl.indexes (visitOrder getLast pl.length)) := by
    unfold PromiseUtil.indexOf
    rw [hplan]
  constructor
  · intro pre p suf hvo hpre hok hsat
    rw [heq, hvo, indexOfGo_skip fn items pl.useGet pl.indexes pre (p :: suf) hpre,
      indexOfGo_found fn items pl.useGet pl.indexes p suf hok hsat]
  · intro hall
    rw [heq, show visitOrder getLast pl.length = visitOrder getLast pl.length ++ [] from
      (List.append_nil _).symm,
      indexOfGo_skip fn items pl.useGet pl.indexes (visitOrder getLast pl.length) [] hall]
    simp [indexOfGo]

/-- C6, witness: on the plain object `{x: 0, y: 4}` the forward search
resolves with key `"y"` after visiting `x` then `y`; on the array `[0]` the
backward search resolves with `-1` after visiting its single element. -/
theorem indexOf_first_match_or_sentinel_witness :
    PromiseUtil.indexOf (.jsObj Option.none []
        [("x", .val (.num 0)), ("y", .val (.num 4))]) idCb false =
      .ok ([(.num 0, .name "x"), (.num 4, .name "y")], .ok (.atKey (.name "y"))) ∧
    PromiseUtil.indexOf (.jsArray [.val (.num 0)]) idCb true =
      .ok ([(.num 0, .pos 0)], .ok .notFoundNeg1) := by
  constructor
  · have h := (indexOf_first_match_or_sentinel
      (.jsObj Option.none [] [("x", .val (.num 0)), ("y", .val (.num 4))]) idCb false
      ⟨Option.some ["x", "y"], 2, false, .cnone⟩ rfl).1
      [0] 1 [] (by decide) (by decide) (by decide) (by decide)
    simpa using h
  · have h := (indexOf_first_match_or_sentinel
      (.jsArray [.val (.num 0)]) idCb true
      ⟨Option.none, 1, false, .cnone⟩ rfl).2 (by decide)
    simpa using h

/-- C7: under an all-successful walk, `find` and `indexOf` with
`getLast: false` resolve from the **first** satisfying position in forward
traversal order, and with `getLast: true` — the walk running backward — they
resolve from the **last** satisfying position in forward order (`getLast?` of
the forward filter); `find` returns the (resolution of the) element at that
position and `indexOf` its key.  With no satisfying position, `indexOf`
resolves its shape-dependent sentinel and `find` the corresponding
`foundElem` not-found result — `undefined`, except that on an array-like
object the unintercepted `-1` sentinel makes `find` read the object's own
`"-1"` property (`items[-1]` in the source). -/
theorem find_indexOf_getLast_forward_backward (items : JSInputTy) (fn : Cb) (pl : Plan)
    (hplan : prepareIteration items false false = .ok pl)
    (hok : ∀ i, i < pl.length → isOkB (elemOutcome fn items pl.useGet pl.indexes i).2 = true) :
    (∃ t, PromiseUtil.indexOf items fn false =
      .ok (t, .ok (foundOut pl.indexes
        ((List.range pl.length).find? (satB fn items pl.useGet pl.indexes))))) ∧
    (∃ t, PromiseUtil.indexOf items fn true =
      .ok (t, .ok (foundOut pl.indexes
        (((List.range pl.length).filter (satB fn items pl.useGet pl.indexes)).getLast?)))) ∧
    (∃ t, PromiseUtil.find items fn false =
      .ok (t, foundElem items pl.useGet pl.indexes
        ((List.range pl.length).find? (satB fn items pl.useGet pl.indexes)))) ∧
    (∃ t, PromiseUtil.find items fn true =
      .ok (t, foundElem items pl.useGet pl.indexes
        (((List.range pl.length).filter (satB fn items pl.useGet pl.indexes)).getLast?))) := by
  have hballf : ∀ i ∈ List.range pl.length,
      isOkB (elemOutcome fn items pl.useGet pl.indexes i).2 = true :=
    fun i hi => hok i (List.mem_range.mp hi)
  have hballb : ∀ i ∈ (List.range pl.length).reverse,
      isOkB (elemOutcome fn items pl.useGet pl.indexes i).2 = true :=
    fun i hi => hok i (List.mem_range.mp (List.mem_reverse.mp hi))
  have heqf : PromiseUtil.indexOf items fn false =
      .ok (indexOfGo fn items pl.useGet pl.indexes (List.range pl.length)) := by
    unfold PromiseUtil.indexOf
    rw [hplan]
    rfl
  have heqb : PromiseUtil.indexOf items fn true =
      .ok (indexOfGo fn items pl.useGet pl.indexes ((List.range pl.length).reverse)) := by
    unfold PromiseUtil.indexOf
    rw [hplan]
    rfl
  have hsndf := indexOfGo_snd_allOk fn items pl.useGet pl.indexes
    (List.range pl.length) hballf
  have hsndb := indexOfGo_snd_allOk fn items pl.useGet pl.indexes
    ((List.range pl.length).reverse) hballb
  rw [find?_reverse_eq_getLast_filter] at hsndb
  have hpairf : PromiseUtil.indexOf items fn false =
      .ok ((indexOfGo fn items pl.useGet pl.indexes (List.range pl.length)).1,
        .ok (foundOut pl.indexes
          ((List.range pl.length).find? (satB fn items pl.useGet pl.indexes)))) := by
    rw [heqf, ← hsndf]
  have hpairb : PromiseUtil.indexOf items fn true =
      .ok ((indexOfGo fn items pl.useGet pl.indexes ((List.range pl.length).reverse)).1,
        .ok (foundOut pl.indexes
          (((List.range pl.length).filter (satB fn items pl.useGet pl.indexes)).getLast?))) := by
    rw [heqb, ← hsndb]
  refine ⟨⟨_, hpairf⟩, ⟨_, hpairb⟩,
    ⟨(indexOfGo fn items pl.useGet pl.indexes (List.range pl.length)).1, ?_⟩,
    ⟨(indexOfGo fn items pl.useGet pl.indexes ((List.range pl.length).reverse)).1, ?_⟩⟩
  · rw [find_of_indexOf_ok items fn false _ _ hpairf,
      findLookup_foundOut items false false pl hplan]
  · rw [find_of_indexOf_ok items fn true _ _ hpairb,
      findLookup_foundOut items false false pl hplan]

/-- C7, witness: on the array `[0, 2, 3]` the forward search finds position
1 (the first truthy result) and the backward search finds position 2 (the
last truthy result in forward order); `find` resolves with the elements `2`
and `3` respectively.  On the array-like `{length: 1, 0: 0, "-1": 42}` with
no satisfying element, `find` resolves with `42` — the program's `items[-1]`
read. -/
theorem find_indexOf_getLast_witness :
    (∃ t, PromiseUtil.indexOf (.jsArray [.val (.num 0), .val (.num 2), .val (.num 3)])
        idCb false = .ok (t, .ok (.atKey (.pos 1)))) ∧
    (∃ t, PromiseUtil.indexOf (.jsArray [.val (.num 0), .val (.num 2), .val (.num 3)])
        idCb true = .ok (t, .ok (.atKey (.pos 2)))) ∧
    (∃ t, PromiseUtil.find (.jsArray [.val (.num 0), .val (.num 2), .val (.num 3)])
        idCb false = .ok (t, .ok (.num 2))) ∧
    (∃ t, PromiseUtil.find (.jsArray [.val (.num 0), .val (.num 2), .val (.num 3)])
        idCb true = .ok (t, .ok (.num 3))) ∧
    (∃ t, PromiseUtil.find (.jsObj (Option.some 1) [.val (.num 0)]
        [("-1", .val (.num 42))]) idCb false = .ok (t, .ok (.num 42))) := by
  have h := find_indexOf_getLast_forward_backward
    (.jsArray [.val (.num 0), .val (.num 2), .val (.num 3)]) idCb
    ⟨Option.none, 3, false, .cnone⟩ rfl (by decide)
  obtain ⟨⟨t1, h1⟩, ⟨t2, h2⟩, ⟨t3, h3⟩, ⟨t4, h4⟩⟩ := h
  have h5 := (find_indexOf_getLast_forward_backward
    (.jsObj (Option.some 1) [.val (.num 0)] [("-1", .val (.num 42))]) idCb
    ⟨Option.none, 1, false, .cnone⟩ (by decide) (by decide)).2.2.1
  obtain ⟨t5, h5⟩ := h5
  refine ⟨⟨t1, ?_⟩, ⟨t2, ?_⟩, ⟨t3, ?_⟩, ⟨t4, ?_⟩, ⟨t5, ?_⟩⟩
  · rw [h1]
    congr 2
  · rw [h2]
    congr 2
  · rw [h3]
    congr 2
  · rw [h4]
    congr 2
  · rw [h5]
    congr 2

/-- C8: the container adapter classifies by the ordered source rules — an
ordered key/value container first (keys in iteration order, get-by-key
access), then any linear sequence (an `Array`, or an object whose `length`
is non-negative — even when enumerable properties are also present, showing
the linear rule wins over the named rule), then a generic object by its own
enumerable keys; and for an input matching none of the shapes every
iteration operation fails **synchronously** (the outer exception channel)
with the `TypeError`, rather than rejecting the returned promise. -/
theorem container_classification_and_sync_failure :
    (∀ (entries : List (String × Elem)) (c a : Bool),
      prepareIteration (JSInputTy.jsMap entries) c a =
        .ok ⟨Option.some (entries.map Prod.fst), entries.length, true,
          if c then (if a then .carr else .cmap) else .cnone⟩) ∧
    (∀ (elems : List Elem) (c a : Bool),
      prepareIteration (JSInputTy.jsArray elems) c a =
        .ok ⟨Option.none, elems.length, false, if c then .carr else .cnone⟩) ∧
    (∀ (n : Int) (elems : List Elem) (props : List (String × Elem)) (c a : Bool), 0 ≤ n →
      prepareIteration (JSInputTy.jsObj (Option.some n) elems props) c a =
        .ok ⟨Option.none, n.toNat, false, if c then .carr else .cnone⟩) ∧
    (∀ (n : Int) (elems : List Elem) (props : List (String × Elem)) (c a : Bool), n < 0 →
      prepareIteration (JSInputTy.jsObj (Option.some n) elems props) c a =
        .ok ⟨Option.some (props.map Prod.fst), props.length, false,
          if c then (if a then .carr else .cobj) else .cnone⟩) ∧
    (∀ (elems : List Elem) (props : List (String × Elem)) (c a : Bool),
      prepareIteration (JSInputTy.jsObj Option.none elems props) c a =
        .ok ⟨Option.some (props.map Prod.fst), props.length, false,
          if c then (if a then .carr else .cobj) else .cnone⟩) ∧
    (∀ (fn : Cb) (stop : Option Bool) (aA gl : Bool),
      PromiseUtil.each JSInputTy.jsPrim fn stop = .error .typeError ∧
      PromiseUtil.filter JSInputTy.jsPrim fn aA = .error .typeError ∧
      PromiseUtil.map JSInputTy.jsPrim fn aA = .error .typeError ∧
      PromiseUtil.multiMap JSInputTy.jsPrim fn aA = .error .typeError ∧
      PromiseUtil.indexOf JSInputTy.jsPrim fn gl = .error .typeError ∧
      PromiseUtil.find JSInputTy.jsPrim fn gl = .error .typeError) := by
  refine ⟨fun entries c a => rfl, fun elems c a => rfl, ?_, ?_, fun elems props c a => rfl, ?_⟩
  · intro n elems props c a hn
    simp [prepareIteration, show n > -1 from by omega]
  · intro n elems props c a hn
    simp [prepareIteration, show ¬(n > -1) from by omega]
  · intro fn stop aA gl
    refine ⟨rfl, rfl, rfl, rfl, rfl, ?_⟩
    unfold PromiseUtil.find PromiseUtil.indexOf
    rfl

/-- C8, witness: an object with `length: 2` and an enumerable property is
classified linear (positions, count 2 — the property is ignored); one with
`length: -3` falls through to the named-keys object rule; and `each` over a
primitive input fails synchronously with the `TypeError`. -/
theorem container_classification_witness :
    prepareIteration (JSInputTy.jsObj (Option.some 2) [.val (.num 8)]
        [("k", .val (.num 9))]) true false =
      .ok ⟨Option.none, 2, false, .carr⟩ ∧
    prepareIteration (JSInputTy.jsObj (Option.some (-3)) [] [("k", .val (.num 9))])
        false false =
      .ok ⟨Option.some ["k"], 1, false, .cnone⟩ ∧
    PromiseUtil.each JSInputTy.jsPrim idCb Option.none = .error .typeError := by
  refine ⟨?_, ?_, ?_⟩
  · have h := container_classification_and_sync_failure.2.2.1 2 [.val (.num 8)]
      [("k", .val (.num 9))] true false (by decide)
    simpa using h
  · have h := container_classification_and_sync_failure.2.2.2.1 (-3) []
      [("k", .val (.num 9))] false false (by decide)
    simpa using h
  · exact (container_classification_and_sync_failure.2.2.2.2.2 idCb Option.none
      false false).1

/-- C9: while the per-unit callback's pending result is outstanding (the
source paused), any run of `end`/`error` signals leaves the operation
unsettled — it neither resolves nor fails; once the pending result settles
successfully, the operation resolves with the shared process context if
`end` had arrived, and fails with the source's error if (only) `error` had
arrived. -/
theorem process_deferred_completion {σ : Type} (pfn : ProcCb σ) (s : ProcState σ) (e : Err)
    (hp : s.paused = true) (hpend : s.pendingOut = Option.some (.ok ()))
    (hset : s.settled = Option.none) :
    (∀ evs : List ProcEv, (∀ ev ∈ evs, ev = ProcEv.endEv ∨ ∃ er, ev = ProcEv.errEv er) →
      (evs.foldl (procStep pfn) s).settled = Option.none) ∧
    (procStep pfn (procStep pfn s ProcEv.endEv) ProcEv.settleEv).settled =
      Option.some (.ok s.target) ∧
    (s.finished = false →
      (procStep pfn (procStep pfn s (ProcEv.errEv e)) ProcEv.settleEv).settled =
        Option.some (.error e)) := by
  refine ⟨fun evs hev => (procSignals_no_settle pfn evs s hp hset hev).2.1, ?_, ?_⟩
  · simp [procStep, trySettle, hp, hpend, hset]
  · intro hfin
    simp [procStep, trySettle, hp, hpend, hset, hfin]

/-- C9, witness: from a concrete paused state with an outstanding successful
per-unit result and context `7`, `end` followed by the settle resolves with
`7`. -/
theorem process_deferred_completion_witness :
    (procStep (fun _ _ _ => CbEffect.sync (fun x => x))
        (procStep (fun _ _ _ => CbEffect.sync (fun x => x))
          (⟨2, 7, false, Option.none, true, Option.some (.ok ()), Option.none⟩ :
            ProcState Nat)
          ProcEv.endEv)
        ProcEv.settleEv).settled = Option.some (.ok 7) :=
  (process_deferred_completion (fun _ _ _ => CbEffect.sync (fun x => x))
    (⟨2, 7, false, Option.none, true, Option.some (.ok ()), Option.none⟩ : ProcState Nat)
    (.userErr 0) rfl rfl rfl).2.1

/-- C10: a successful `filter` writes, for every kept key, the **raw** source
element as read from the container — `keptSpec` pairs each satisfying key
with `getElem` itself, so a pending element whose resolution satisfied the
callback is kept as the pending handle, never as its awaited resolution. -/
theorem filter_keeps_raw_elements (items : JSInputTy) (fn : Cb) (asArray : Bool) (pl : Plan)
    (hplan : prepareIteration items true asArray = .ok pl)
    (hok : ∀ i, i < pl.length → isOkB (elemOutcome fn items pl.useGet pl.indexes i).2 = true) :
    PromiseUtil.filter items fn asArray =
      .ok (walkTrace fn items pl.useGet pl.indexes 0 pl.length,
           .ok (assembleKept pl.collKind
             (keptSpec fn items pl.useGet pl.indexes 0 pl.length))) := by
  have heq : PromiseUtil.filter items fn asArray =
      .ok ((filterGo fn items pl.useGet pl.indexes 0 pl.length).1,
           (filterGo fn items pl.useGet pl.indexes 0 pl.length).2.map
             (assembleKept pl.collKind)) := by
    unfold PromiseUtil.filter
    rw [hplan]
  rw [heq, filterGo_allOk fn items pl.useGet pl.indexes pl.length 0
    (fun i hi => by simpa using hok i hi)]
  simp [Except.map]

/-- C10, witness: filtering `[0, <pending 3>]` keeps exactly the second
element — as the pending handle itself, not the resolved `3`. -/
theorem filter_keeps_raw_witness :
    PromiseUtil.filter (.jsArray [.val (.num 0), .pend (.ok (.num 3))]) idCb true =
      .ok ([(.num 0, .pos 0), (.num 3, .pos 1)],
           .ok (.rarr [Elem.pend (.ok (.num 3))])) := by
  have h := filter_keeps_raw_elements (.jsArray [.val (.num 0), .pend (.ok (.num 3))])
    idCb true ⟨Option.none, 2, false, .carr⟩ rfl (by decide)
  simpa using h

end PromiseEssentials


